import Mathlib

/-!
Verification of the Berry–Sethi regex-to-DFA converter.

The definitions below are a shallow embedding of the algorithmic core shared by
`main.py` and `app.py`: the recursive-descent regex parser (`RegexParser`), the
position annotator (`annotate`, with the module-level `positions` table threaded
explicitly), the followpos builder (`compute_followpos`) and the worklist DFA
constructor (`construct_dfa`).  Python dictionaries are modelled as association
lists with dictionary update semantics; Python sets of positions are `Finset ℕ`;
iteration over a set of small naturals is modelled as iteration in ascending
order, which is CPython's observable iteration order for such sets.
-/

set_option maxRecDepth 10000

/-- Regex syntax tree built by `RegexParser`.  The `plus` constructor records the
`+` desugaring `RegexNode('concat', left=node, right=RegexNode('star', left=node))`,
which in the Python source aliases the same child object on both sides; keeping it
as its own constructor lets `annotate` reproduce the double traversal of the
shared subtree. -/
inductive RegexNode where
  | symbol (c : Char)
  | concat (l r : RegexNode)
  | union (l r : RegexNode)
  | star (n : RegexNode)
  | plus (n : RegexNode)
  deriving DecidableEq, Repr

/-- The two exceptions raised by `RegexParser`: `Mismatched parentheses` and
`Unexpected character: {ch}` where `ch` is the current character or `None`. -/
inductive ParseError where
  | mismatchedParentheses
  | unexpectedCharacter (c : Option Char)
  deriving DecidableEq, Repr

instance instDecEqExcept {ε α : Type} [DecidableEq ε] [DecidableEq α] :
    DecidableEq (Except ε α) := fun x y =>
  match x, y with
  | .ok a, .ok b =>
    if h : a = b then .isTrue (by rw [h]) else .isFalse fun hc => h (Except.ok.inj hc)
  | .error a, .error b =>
    if h : a = b then .isTrue (by rw [h]) else .isFalse fun hc => h (Except.error.inj hc)
  | .ok _, .error _ => .isFalse fun hc => Except.noConfusion hc
  | .error _, .ok _ => .isFalse fun hc => Except.noConfusion hc

/-- The postfix-operator loop of `factor`: consume `'*'` and `'+'` characters. -/
def factorLoop : RegexNode → List Char → RegexNode × List Char
  | node, '*' :: rest => factorLoop (.star node) rest
  | node, '+' :: rest => factorLoop (.plus node) rest
  | node, cs => (node, cs)

namespace RegexParser

mutual

/-- `base`: a parenthesised expression or a single alphanumeric-or-`'#'` symbol.
The `Nat` argument is recursion fuel; the parser's mutual recursion is fuelled,
with `parse` supplying more fuel than any input of its length can consume. -/
def base : Nat → List Char → Except ParseError (RegexNode × List Char)
  | 0, _ => .error (.unexpectedCharacter none)
  | fuel + 1, cs =>
    match cs with
    | '(' :: rest =>
      match expression fuel rest with
      | .ok (node, rest') =>
        match rest' with
        | ')' :: rest'' => .ok (node, rest'')
        | _ => .error .mismatchedParentheses
      | .error e => .error e
    | c :: rest =>
      if c.isAlphanum || c = '#' then .ok (.symbol c, rest)
      else .error (.unexpectedCharacter (some c))
    | [] => .error (.unexpectedCharacter none)

/-- `factor`: a `base` followed by any number of `'*'`/`'+'` postfix operators. -/
def factor : Nat → List Char → Except ParseError (RegexNode × List Char)
  | 0, _ => .error (.unexpectedCharacter none)
  | fuel + 1, cs =>
    match base fuel cs with
    | .ok (node, rest) => .ok (factorLoop node rest)
    | .error e => .error e

/-- The concatenation loop of `term`: while the current character exists and is
neither `'|'` nor `')'`, parse another `factor` and concatenate. -/
def termLoop : Nat → RegexNode → List Char → Except ParseError (RegexNode × List Char)
  | 0, _, _ => .error (.unexpectedCharacter none)
  | _ + 1, node, [] => .ok (node, [])
  | fuel + 1, node, c :: rest =>
    if c = '|' ∨ c = ')' then .ok (node, c :: rest)
    else
      match factor fuel (c :: rest) with
      | .ok (node', rest') => termLoop fuel (.concat node node') rest'
      | .error e => .error e

/-- `term`: one or more `factor`s concatenated. -/
def term : Nat → List Char → Except ParseError (RegexNode × List Char)
  | 0, _ => .error (.unexpectedCharacter none)
  | fuel + 1, cs =>
    match factor fuel cs with
    | .ok (node, rest) => termLoop fuel node rest
    | .error e => .error e

/-- The alternation loop of `expression`: while the current character is `'|'`,
consume it and union with the next `term`. -/
def exprLoop : Nat → RegexNode → List Char → Except ParseError (RegexNode × List Char)
  | 0, _, _ => .error (.unexpectedCharacter none)
  | fuel + 1, node, '|' :: rest =>
    match term fuel rest with
    | .ok (node', rest') => exprLoop fuel (.union node node') rest'
    | .error e => .error e
  | _ + 1, node, cs => .ok (node, cs)

/-- `expression`: one or more `term`s separated by `'|'`. -/
def expression : Nat → List Char → Except ParseError (RegexNode × List Char)
  | 0, _ => .error (.unexpectedCharacter none)
  | fuel + 1, cs =>
    match term fuel cs with
    | .ok (node, rest) => exprLoop fuel node rest
    | .error e => .error e

end

end RegexParser

/-- `RegexParser.parse`: parse the expression and wrap it as
`Concat(expr, Symbol('#'))`.  Any input remaining after the expression is
silently ignored, exactly as in the source.  The fuel is generous enough for
every input of the given length. -/
def parse (s : String) : Except ParseError RegexNode :=
  match RegexParser.expression (8 * s.length + 8) s.data with
  | .ok (node, _) => .ok (.concat node (.symbol '#'))
  | .error e => .error e

/-- Every successful parse wraps the expression with the `'#'` end marker. -/
theorem parse_shape (s : String) (t : RegexNode) (h : parse s = .ok t) :
    ∃ e, t = .concat e (.symbol '#') := by
  unfold parse at h
  cases hx : RegexParser.expression (8 * s.length + 8) s.data with
  | ok p => rw [hx] at h; exact ⟨p.1, by cases h; rfl⟩
  | error e => rw [hx] at h; cases h

/-- Annotated syntax tree: the tree after `annotate` has run, with each leaf
carrying the position finally stored in its `position` field. -/
inductive ATree where
  | asymbol (c : Char) (p : ℕ)
  | aconcat (l r : ATree)
  | aunion (l r : ATree)
  | astar (n : ATree)
  deriving DecidableEq, Repr

/-- The `positions` table: a Python dict mapping PositionId to symbol character,
modelled as an association list where the most recent binding is first. -/
abbrev PTbl := List (ℕ × Char)

/-- `nullable` attribute, as computed by `annotate`. -/
def anullable : ATree → Bool
  | .asymbol _ _ => false
  | .aconcat l r => anullable l && anullable r
  | .aunion l r => anullable l || anullable r
  | .astar _ => true

/-- `firstpos` attribute, as computed by `annotate`. -/
def afirst : ATree → Finset ℕ
  | .asymbol _ p => {p}
  | .aconcat l r => if anullable l then afirst l ∪ afirst r else afirst l
  | .aunion l r => afirst l ∪ afirst r
  | .astar n => afirst n

/-- `lastpos` attribute, as computed by `annotate`. -/
def alast : ATree → Finset ℕ
  | .asymbol _ p => {p}
  | .aconcat l r => if anullable r then alast l ∪ alast r else alast r
  | .aunion l r => alast l ∪ alast r
  | .astar n => alast n

/-- Number of leaf visits `annotate` performs on a tree: one per `Symbol`, and
twice the operand's count for a `+` node because the desugared
`Concat(node, Star(node))` aliases `node`, so the traversal annotates it twice. -/
def leafCount : RegexNode → ℕ
  | .symbol _ => 1
  | .concat l r => leafCount l + leafCount r
  | .union l r => leafCount l + leafCount r
  | .star n => leafCount n
  | .plus n => 2 * leafCount n

/-- `annotate`, threading the global `position_counter` and `positions` dict
explicitly.  For a `plus` node the shared operand is annotated twice, first as
the concatenation's left child and then as the star's child; the object's final
attributes are those of the second visit, so the resulting annotated tree uses
the second visit's result in both places. -/
def annotate : RegexNode → ℕ → PTbl → ATree × ℕ × PTbl
  | .symbol ch, ctr, tbl => (.asymbol ch ctr, ctr + 1, (ctr, ch) :: tbl)
  | .concat l r, ctr, tbl =>
    let pl := annotate l ctr tbl
    let pr := annotate r pl.2.1 pl.2.2
    (.aconcat pl.1 pr.1, pr.2.1, pr.2.2)
  | .union l r, ctr, tbl =>
    let pl := annotate l ctr tbl
    let pr := annotate r pl.2.1 pl.2.2
    (.aunion pl.1 pr.1, pr.2.1, pr.2.2)
  | .star n, ctr, tbl =>
    let pn := annotate n ctr tbl
    (.astar pn.1, pn.2.1, pn.2.2)
  | .plus n, ctr, tbl =>
    let p1 := annotate n ctr tbl
    let p2 := annotate n p1.2.1 p1.2.2
    (.aconcat p2.1 (.astar p2.1), p2.2.1, p2.2.2)

/-- The `(position, symbol)` pairs at the leaves of an annotated tree, in
left-to-right order. -/
def leafEntries : ATree → List (ℕ × Char)
  | .asymbol c p => [(p, c)]
  | .aconcat l r => leafEntries l ++ leafEntries r
  | .aunion l r => leafEntries l ++ leafEntries r
  | .astar n => leafEntries n

/-- The symbol characters occurring in a regex tree. -/
def symOf : RegexNode → List Char
  | .symbol c => [c]
  | .concat l r => symOf l ++ symOf r
  | .union l r => symOf l ++ symOf r
  | .star n => symOf n
  | .plus n => symOf n

theorem annotate_counter (e : RegexNode) :
    ∀ ctr tbl, (annotate e ctr tbl).2.1 = ctr + leafCount e := by
  induction e with
  | symbol c => intro ctr tbl; simp [annotate, leafCount]
  | concat l r ihl ihr => intro ctr tbl; simp [annotate, leafCount, ihl, ihr]; omega
  | union l r ihl ihr => intro ctr tbl; simp [annotate, leafCount, ihl, ihr]; omega
  | star n ih => intro ctr tbl; simp [annotate, leafCount, ih]
  | plus n ih => intro ctr tbl; simp [annotate, leafCount, ih]; omega

theorem annotate_tbl (e : RegexNode) :
    ∀ ctr tbl, ∃ E, (annotate e ctr tbl).2.2 = E ++ tbl ∧
      E.map Prod.fst = (List.range' ctr (leafCount e)).reverse := by
  induction e with
  | symbol c =>
    intro ctr tbl
    exact ⟨[(ctr, c)], by simp [annotate], by simp [leafCount]⟩
  | concat l r ihl ihr =>
    intro ctr tbl
    obtain ⟨E₁, h1, k1⟩ := ihl ctr tbl
    obtain ⟨E₂, h2, k2⟩ := ihr (annotate l ctr tbl).2.1 (annotate l ctr tbl).2.2
    refine ⟨E₂ ++ E₁, by simp only [annotate]; rw [h2, h1, List.append_assoc], ?_⟩
    have hr := List.range'_append ctr (leafCount l) (leafCount r) 1
    rw [one_mul] at hr
    rw [List.map_append, k1, k2, annotate_counter, ← List.reverse_append, hr, leafCount,
      Nat.add_comm (leafCount l) (leafCount r)]
  | union l r ihl ihr =>
    intro ctr tbl
    obtain ⟨E₁, h1, k1⟩ := ihl ctr tbl
    obtain ⟨E₂, h2, k2⟩ := ihr (annotate l ctr tbl).2.1 (annotate l ctr tbl).2.2
    refine ⟨E₂ ++ E₁, by simp only [annotate]; rw [h2, h1, List.append_assoc], ?_⟩
    have hr := List.range'_append ctr (leafCount l) (leafCount r) 1
    rw [one_mul] at hr
    rw [List.map_append, k1, k2, annotate_counter, ← List.reverse_append, hr, leafCount,
      Nat.add_comm (leafCount l) (leafCount r)]
  | star n ih =>
    intro ctr tbl
    obtain ⟨E, h, k⟩ := ih ctr tbl
    exact ⟨E, by simp [annotate, h], by simpa [leafCount] using k⟩
  | plus n ih =>
    intro ctr tbl
    obtain ⟨E₁, h1, k1⟩ := ih ctr tbl
    obtain ⟨E₂, h2, k2⟩ := ih (annotate n ctr tbl).2.1 (annotate n ctr tbl).2.2
    refine ⟨E₂ ++ E₁, by simp only [annotate]; rw [h2, h1, List.append_assoc], ?_⟩
    have hr := List.range'_append ctr (leafCount n) (leafCount n) 1
    rw [one_mul] at hr
    rw [List.map_append, k1, k2, annotate_counter, ← List.reverse_append, hr, leafCount,
      Nat.two_mul]

/-- The keys of the position table after annotation, newest first. -/
theorem annotate_keys (e : RegexNode) (ctr : ℕ) (tbl : PTbl) :
    ((annotate e ctr tbl).2.2).map Prod.fst =
      (List.range' ctr (leafCount e)).reverse ++ tbl.map Prod.fst := by
  obtain ⟨E, h, k⟩ := annotate_tbl e ctr tbl
  rw [h, List.map_append, k]

/-- Leaf positions of the annotated tree lie in the counter interval consumed
by the annotation. -/
theorem leafEntries_range (e : RegexNode) :
    ∀ ctr tbl, ∀ pr ∈ leafEntries (annotate e ctr tbl).1,
      ctr ≤ pr.1 ∧ pr.1 < ctr + leafCount e := by
  induction e with
  | symbol c => intro ctr tbl pr hpr; simp [annotate, leafEntries] at hpr; simp [hpr, leafCount]
  | concat l r ihl ihr =>
    intro ctr tbl pr hpr
    simp only [annotate, leafEntries, List.mem_append] at hpr
    rcases hpr with h | h
    · have := ihl ctr tbl pr h
      simp only [leafCount]; omega
    · have := ihr (annotate l ctr tbl).2.1 (annotate l ctr tbl).2.2 pr h
      rw [annotate_counter] at this
      simp only [leafCount]; omega
  | union l r ihl ihr =>
    intro ctr tbl pr hpr
    simp only [annotate, leafEntries, List.mem_append] at hpr
    rcases hpr with h | h
    · have := ihl ctr tbl pr h
      simp only [leafCount]; omega
    · have := ihr (annotate l ctr tbl).2.1 (annotate l ctr tbl).2.2 pr h
      rw [annotate_counter] at this
      simp only [leafCount]; omega
  | star n ih =>
    intro ctr tbl pr hpr
    simp only [annotate, leafEntries] at hpr
    have := ih ctr tbl pr hpr
    simpa [leafCount] using this
  | plus n ih =>
    intro ctr tbl pr hpr
    simp only [annotate, leafEntries, List.mem_append] at hpr
    have h2 : pr ∈ leafEntries (annotate n (annotate n ctr tbl).2.1 (annotate n ctr tbl).2.2).1 := by
      rcases hpr with h | h
      · exact h
      · exact h
    have := ih (annotate n ctr tbl).2.1 (annotate n ctr tbl).2.2 pr h2
    rw [annotate_counter] at this
    simp only [leafCount]; omega

/-- Leaf symbols of the annotated tree are symbols of the regex. -/
theorem leafEntries_sym (e : RegexNode) :
    ∀ ctr tbl, ∀ pr ∈ leafEntries (annotate e ctr tbl).1, pr.2 ∈ symOf e := by
  induction e with
  | symbol c => intro ctr tbl pr hpr; simp [annotate, leafEntries] at hpr; simp [hpr, symOf]
  | concat l r ihl ihr =>
    intro ctr tbl pr hpr
    simp only [annotate, leafEntries, List.mem_append] at hpr
    simp only [symOf, List.mem_append]
    rcases hpr with h | h
    · exact Or.inl (ihl ctr tbl pr h)
    · exact Or.inr (ihr _ _ pr h)
  | union l r ihl ihr =>
    intro ctr tbl pr hpr
    simp only [annotate, leafEntries, List.mem_append] at hpr
    simp only [symOf, List.mem_append]
    rcases hpr with h | h
    · exact Or.inl (ihl ctr tbl pr h)
    · exact Or.inr (ihr _ _ pr h)
  | star n ih =>
    intro ctr tbl pr hpr
    simp only [annotate, leafEntries] at hpr
    exact ih ctr tbl pr hpr
  | plus n ih =>
    intro ctr tbl pr hpr
    simp only [annotate, leafEntries, List.mem_append, symOf] at hpr ⊢
    rcases hpr with h | h
    · exact ih _ _ pr h
    · exact ih _ _ pr h

theorem lookup_eq_none_of_notMem {β : Type} {p : ℕ} {l : List (ℕ × β)}
    (h : p ∉ l.map Prod.fst) : List.lookup p l = none := by
  induction l with
  | nil => rfl
  | cons hd tl ih =>
    obtain ⟨k, v⟩ := hd
    simp only [List.map_cons, List.mem_cons] at h
    push_neg at h
    rw [List.lookup_cons]
    have hk : (p == k) = false := beq_eq_false_iff_ne.mpr h.1
    rw [hk]
    exact ih h.2

/-- Looking up the position of any leaf of the final annotated tree in the final
position table returns that leaf's symbol.  For a `plus` node the leaves of both
aliased copies carry the second visit's positions, whose table entries are the
most recent ones, so the lookup still succeeds. -/
theorem leafEntries_lookup (e : RegexNode) :
    ∀ ctr tbl, ∀ pr ∈ leafEntries (annotate e ctr tbl).1,
      List.lookup pr.1 (annotate e ctr tbl).2.2 = some pr.2 := by
  induction e with
  | symbol c =>
    intro ctr tbl pr hpr
    simp only [annotate, leafEntries, List.mem_singleton] at hpr
    subst hpr
    simp [annotate, List.lookup_cons]
  | concat l r ihl ihr =>
    intro ctr tbl pr hpr
    simp only [annotate, leafEntries, List.mem_append] at hpr
    simp only [annotate]
    rcases hpr with h | h
    · have hlow := (leafEntries_range l ctr tbl pr h).2
      obtain ⟨E₂, h2, k2⟩ := annotate_tbl r (annotate l ctr tbl).2.1 (annotate l ctr tbl).2.2
      rw [h2, List.lookup_append, lookup_eq_none_of_notMem, Option.none_or]
      · exact ihl ctr tbl pr h
      · rw [k2, List.mem_reverse, List.mem_range'_1, annotate_counter]
        omega
    · exact ihr _ _ pr h
  | union l r ihl ihr =>
    intro ctr tbl pr hpr
    simp only [annotate, leafEntries, List.mem_append] at hpr
    simp only [annotate]
    rcases hpr with h | h
    · have hlow := (leafEntries_range l ctr tbl pr h).2
      obtain ⟨E₂, h2, k2⟩ := annotate_tbl r (annotate l ctr tbl).2.1 (annotate l ctr tbl).2.2
      rw [h2, List.lookup_append, lookup_eq_none_of_notMem, Option.none_or]
      · exact ihl ctr tbl pr h
      · rw [k2, List.mem_reverse, List.mem_range'_1, annotate_counter]
        omega
    · exact ihr _ _ pr h
  | star n ih =>
    intro ctr tbl pr hpr
    simp only [annotate, leafEntries] at hpr
    simp only [annotate]
    exact ih ctr tbl pr hpr
  | plus n ih =>
    intro ctr tbl pr hpr
    simp only [annotate, leafEntries, List.mem_append] at hpr
    simp only [annotate]
    rcases hpr with h | h
    · exact ih _ _ pr h
    · exact ih _ _ pr h

/-- The set of leaf positions of an annotated tree. -/
def leafPosF (a : ATree) : Finset ℕ := ((leafEntries a).map Prod.fst).toFinset

@[simp] theorem leafPosF_asymbol (c : Char) (p : ℕ) : leafPosF (.asymbol c p) = {p} := by
  simp [leafPosF, leafEntries]

@[simp] theorem leafPosF_aconcat (l r : ATree) :
    leafPosF (.aconcat l r) = leafPosF l ∪ leafPosF r := by
  simp [leafPosF, leafEntries]

@[simp] theorem leafPosF_aunion (l r : ATree) :
    leafPosF (.aunion l r) = leafPosF l ∪ leafPosF r := by
  simp [leafPosF, leafEntries]

@[simp] theorem leafPosF_astar (n : ATree) : leafPosF (.astar n) = leafPosF n := by
  simp [leafPosF, leafEntries]

theorem afirst_subset (a : ATree) : afirst a ⊆ leafPosF a := by
  induction a with
  | asymbol c p => simp [afirst]
  | aconcat l r ihl ihr =>
    rw [afirst, leafPosF_aconcat]
    split
    · exact Finset.union_subset_union ihl ihr
    · exact ihl.trans Finset.subset_union_left
  | aunion l r ihl ihr =>
    rw [afirst, leafPosF_aunion]
    exact Finset.union_subset_union ihl ihr
  | astar n ih => rw [afirst, leafPosF_astar]; exact ih

theorem alast_subset (a : ATree) : alast a ⊆ leafPosF a := by
  induction a with
  | asymbol c p => simp [alast]
  | aconcat l r ihl ihr =>
    rw [alast, leafPosF_aconcat]
    split
    · exact Finset.union_subset_union ihl ihr
    · exact ihr.trans Finset.subset_union_right
  | aunion l r ihl ihr =>
    rw [alast, leafPosF_aunion]
    exact Finset.union_subset_union ihl ihr
  | astar n ih => rw [alast, leafPosF_astar]; exact ih

/-- The elements of a finite set of naturals in ascending order, which is
CPython's observable iteration order for a set of small ints.  Defined with a
structurally recursive insertion sort so that it evaluates inside the kernel. -/
def sortedElems (s : Finset ℕ) : List ℕ :=
  Quot.lift (List.insertionSort (· ≤ ·))
    (fun a b hab =>
      List.eq_of_perm_of_sorted
        ((List.perm_insertionSort _ a).trans (hab.trans (List.perm_insertionSort _ b).symm))
        (List.sorted_insertionSort _ a) (List.sorted_insertionSort _ b))
    s.val

theorem mem_sortedElems (s : Finset ℕ) (p : ℕ) : p ∈ sortedElems s ↔ p ∈ s := by
  obtain ⟨⟨l⟩, hnd⟩ := s
  exact (List.perm_insertionSort _ l).mem_iff

/-- The `followpos_table`: a Python dict mapping PositionId to a set of
PositionIds, modelled as an association list in insertion order. -/
abbrev FTbl := List (ℕ × Finset ℕ)

/-- `followpos_table.setdefault(pos, set()).update(s)`: create the key with the
empty set if absent, then union `s` into its value. -/
def ftblAdd (p : ℕ) (s : Finset ℕ) : FTbl → FTbl
  | [] => [(p, s)]
  | (q, u) :: t => if q = p then (q, u ∪ s) :: t else (q, u) :: ftblAdd p s t

/-- Perform `ftblAdd` for every position in a list. -/
def ftblAddAll (ps : List ℕ) (s : Finset ℕ) (t : FTbl) : FTbl :=
  ps.foldl (fun acc p => ftblAdd p s acc) t

/-- `followpos_table.get(pos, set())`. -/
def ftblGet (p : ℕ) (t : FTbl) : Finset ℕ := (List.lookup p t).getD ∅

/-- `compute_followpos`: the concat rule adds `firstpos(right)` to the followpos
of every position of `lastpos(left)`, the star rule adds the node's `firstpos`
to the followpos of every position of its `lastpos`; then recurse into the
children.  Iteration over a Python set of positions is in ascending order. -/
def compute_followpos : ATree → FTbl → FTbl
  | .asymbol _ _, t => t
  | .aconcat l r, t =>
    let t1 := ftblAddAll (sortedElems (alast l)) (afirst r) t
    compute_followpos r (compute_followpos l t1)
  | .aunion l r, t => compute_followpos r (compute_followpos l t)
  | .astar n, t =>
    let t1 := ftblAddAll (sortedElems (alast n)) (afirst n) t
    compute_followpos n t1

theorem mem_ftblAdd_keys {q p : ℕ} {s : Finset ℕ} :
    ∀ {t : FTbl}, q ∈ (ftblAdd p s t).map Prod.fst → q = p ∨ q ∈ t.map Prod.fst := by
  intro t
  induction t with
  | nil => simp [ftblAdd]
  | cons hd tl ih =>
    obtain ⟨k, u⟩ := hd
    by_cases hk : k = p
    · subst hk
      intro h
      simp [ftblAdd] at h ⊢
      tauto
    · simp only [ftblAdd, if_neg hk, List.map_cons, List.mem_cons]
      intro h
      rcases h with h | h
      · tauto
      · rcases ih h with h' | h' <;> tauto

theorem ftblGet_ftblAdd (q p : ℕ) (s : Finset ℕ) :
    ∀ t : FTbl, ftblGet q (ftblAdd p s t) = if q = p then ftblGet q t ∪ s else ftblGet q t := by
  intro t
  induction t with
  | nil =>
    by_cases hq : q = p
    · simp [ftblAdd, ftblGet, List.lookup_cons, hq]
    · simp [ftblAdd, ftblGet, List.lookup_cons, hq, beq_eq_false_iff_ne.mpr hq]
  | cons hd tl ih =>
    obtain ⟨k, u⟩ := hd
    by_cases hk : k = p
    · subst hk
      by_cases hq : q = k
      · simp [ftblAdd, ftblGet, List.lookup_cons, hq]
      · simp [ftblAdd, ftblGet, List.lookup_cons, hq, beq_eq_false_iff_ne.mpr hq]
    · by_cases hq : q = k
      · subst hq
        have : ¬ q = p := fun h => hk (h ▸ rfl)
        simp [ftblAdd, if_neg hk, ftblGet, List.lookup_cons, this]
      · simp only [ftblAdd, if_neg hk]
        rw [show ftblGet q ((k, u) :: ftblAdd p s tl) = ftblGet q (ftblAdd p s tl) by
          simp [ftblGet, List.lookup_cons, beq_eq_false_iff_ne.mpr hq]]
        rw [show ftblGet q ((k, u) :: tl) = ftblGet q tl by
          simp [ftblGet, List.lookup_cons, beq_eq_false_iff_ne.mpr hq]]
        exact ih

theorem ftblGet_addAll_subset (q : ℕ) (s : Finset ℕ) (ps : List ℕ) :
    ∀ t : FTbl, ftblGet q (ftblAddAll ps s t) ⊆ ftblGet q t ∪ s := by
  induction ps with
  | nil => intro t; exact Finset.subset_union_left
  | cons p ps ih =>
    intro t
    have hfold : ftblAddAll (p :: ps) s t = ftblAddAll ps s (ftblAdd p s t) := rfl
    rw [hfold]
    refine (ih (ftblAdd p s t)).trans ?_
    rw [ftblGet_ftblAdd]
    split
    · intro x hx
      simp only [Finset.mem_union] at hx ⊢
      tauto
    · exact subset_rfl

theorem mem_addAll_keys {q : ℕ} {s : Finset ℕ} {ps : List ℕ} :
    ∀ {t : FTbl}, q ∈ (ftblAddAll ps s t).map Prod.fst → q ∈ ps ∨ q ∈ t.map Prod.fst := by
  induction ps with
  | nil => intro t h; exact Or.inr h
  | cons p ps ih =>
    intro t h
    have h' := ih (t := ftblAdd p s t) (by simpa [ftblAddAll] using h)
    rcases h' with h' | h'
    · exact Or.inl (List.mem_cons_of_mem _ h')
    · rcases mem_ftblAdd_keys h' with h'' | h''
      · exact Or.inl (h'' ▸ List.mem_cons_self _ _)
      · exact Or.inr h''

/-- Positions that receive followpos entries somewhere in the tree: the
`lastpos` of every concat's left child and of every star's operand. -/
def Kset : ATree → Finset ℕ
  | .asymbol _ _ => ∅
  | .aconcat l r => alast l ∪ Kset l ∪ Kset r
  | .aunion l r => Kset l ∪ Kset r
  | .astar n => alast n ∪ Kset n

theorem Kset_subset (a : ATree) : Kset a ⊆ leafPosF a := by
  induction a with
  | asymbol c p => simp [Kset]
  | aconcat l r ihl ihr =>
    rw [Kset, leafPosF_aconcat]
    refine Finset.union_subset (Finset.union_subset ?_ ?_) ?_
    · exact (alast_subset l).trans Finset.subset_union_left
    · exact ihl.trans Finset.subset_union_left
    · exact ihr.trans Finset.subset_union_right
  | aunion l r ihl ihr =>
    rw [Kset, leafPosF_aunion]
    exact Finset.union_subset (ihl.trans Finset.subset_union_left)
      (ihr.trans Finset.subset_union_right)
  | astar n ih =>
    rw [Kset, leafPosF_astar]
    exact Finset.union_subset (alast_subset n) ih

theorem followpos_keys (a : ATree) :
    ∀ t q, q ∈ (compute_followpos a t).map Prod.fst → q ∈ t.map Prod.fst ∨ q ∈ Kset a := by
  induction a with
  | asymbol c p => intro t q h; exact Or.inl h
  | aconcat l r ihl ihr =>
    intro t q h
    simp only [compute_followpos] at h
    rcases ihr _ q h with h' | h'
    · rcases ihl _ q h' with h'' | h''
      · rcases mem_addAll_keys h'' with h3 | h3
        · rw [mem_sortedElems] at h3
          exact Or.inr (by rw [Kset]; simp only [Finset.mem_union]; tauto)
        · exact Or.inl h3
      · exact Or.inr (by rw [Kset]; simp only [Finset.mem_union]; tauto)
    · exact Or.inr (by rw [Kset]; simp only [Finset.mem_union]; tauto)
  | aunion l r ihl ihr =>
    intro t q h
    simp only [compute_followpos] at h
    rcases ihr _ q h with h' | h'
    · rcases ihl _ q h' with h'' | h''
      · exact Or.inl h''
      · exact Or.inr (by rw [Kset]; simp only [Finset.mem_union]; tauto)
    · exact Or.inr (by rw [Kset]; simp only [Finset.mem_union]; tauto)
  | astar n ih =>
    intro t q h
    simp only [compute_followpos] at h
    rcases ih _ q h with h' | h'
    · rcases mem_addAll_keys h' with h3 | h3
      · rw [mem_sortedElems] at h3
        exact Or.inr (by rw [Kset]; simp only [Finset.mem_union]; tauto)
      · exact Or.inl h3
    · exact Or.inr (by rw [Kset]; simp only [Finset.mem_union]; tauto)

theorem followpos_values (a : ATree) :
    ∀ t q, ftblGet q (compute_followpos a t) ⊆ ftblGet q t ∪ leafPosF a := by
  induction a with
  | asymbol c p => intro t q; exact Finset.subset_union_left
  | aconcat l r ihl ihr =>
    intro t q
    simp only [compute_followpos]
    intro x hx
    have h1 := ihr _ q hx
    simp only [Finset.mem_union] at h1
    rcases h1 with h1 | h1
    · have h2 := ihl _ q h1
      simp only [Finset.mem_union] at h2
      rcases h2 with h2 | h2
      · have h3 := ftblGet_addAll_subset q (afirst r) _ t h2
        simp only [Finset.mem_union] at h3
        rcases h3 with h3 | h3
        · exact Finset.mem_union_left _ h3
        · have := afirst_subset r h3
          rw [leafPosF_aconcat]
          simp only [Finset.mem_union]
          tauto
      · rw [leafPosF_aconcat]
        simp only [Finset.mem_union]
        tauto
    · rw [leafPosF_aconcat]
      simp only [Finset.mem_union]
      tauto
  | aunion l r ihl ihr =>
    intro t q
    simp only [compute_followpos]
    intro x hx
    have h1 := ihr _ q hx
    simp only [Finset.mem_union] at h1
    rcases h1 with h1 | h1
    · have h2 := ihl _ q h1
      rw [leafPosF_aunion]
      simp only [Finset.mem_union] at h2 ⊢
      tauto
    · rw [leafPosF_aunion]
      simp only [Finset.mem_union]
      tauto
  | astar n ih =>
    intro t q
    simp only [compute_followpos]
    intro x hx
    have h1 := ih _ q hx
    simp only [Finset.mem_union] at h1
    rcases h1 with h1 | h1
    · have h3 := ftblGet_addAll_subset q (afirst n) _ t h1
      simp only [Finset.mem_union] at h3
      rcases h3 with h3 | h3
      · exact Finset.mem_union_left _ h3
      · have := afirst_subset n h3
        rw [leafPosF_astar]
        simp only [Finset.mem_union]
        tauto
    · rw [leafPosF_astar]
      simp only [Finset.mem_union]
      tauto

/-- `positions[pos]` lookup.  The default is never consulted for inputs produced
by the pipeline, whose position sets only mention assigned positions. -/
def ptblGet (p : ℕ) (t : PTbl) : Char := (List.lookup p t).getD ' '

/-- `any(positions[pos] == chr(35) for pos in pos_set)`: does the position set
contain a position whose table symbol is the end-marker character? -/
def containsHash (s : Finset ℕ) (t : PTbl) : Bool :=
  (sortedElems s).any fun p => ptblGet p t == '#'

/-- The per-state `symbol_pos_map` dict: symbol character to accumulated set of
follow positions, in insertion order. -/
abbrev SMap := List (Char × Finset ℕ)

/-- `symbol_pos_map.setdefault(symbol, set()).update(s)`. -/
def smapAdd (c : Char) (s : Finset ℕ) : SMap → SMap
  | [] => [(c, s)]
  | (d, u) :: t => if d = c then (d, u ∪ s) :: t else (d, u) :: smapAdd c s t

/-- Build `symbol_pos_map` for one state: iterate the state's positions in
ascending order, skip the positions whose symbol is the end marker, and union
`followpos_table.get(pos, set())` into the entry for the position's symbol. -/
def buildSymbolMap (ps : Finset ℕ) (ptbl : PTbl) (ftbl : FTbl) : SMap :=
  (sortedElems ps).foldl
    (fun m p =>
      let sym := ptblGet p ptbl
      if sym = '#' then m else smapAdd sym (ftblGet p ftbl) m)
    []

/-- Replace the element at an index, leaving the list unchanged when out of
range. -/
def listModify {α : Type} : List α → ℕ → (α → α) → List α
  | [], _, _ => []
  | x :: xs, 0, f => f x :: xs
  | x :: xs, i + 1, f => x :: listModify xs i f

/-- `states[state_id][symbol] = next_state_id` on one state's transition dict. -/
def tmapSet (c : Char) (v : ℕ) : List (Char × ℕ) → List (Char × ℕ)
  | [] => [(c, v)]
  | (d, u) :: t => if d = c then (d, v) :: t else (d, u) :: tmapSet c v t

/-- The mutable state of `construct_dfa`: the `states` list of transition dicts,
the `state_pos` table (a list indexed by state id; `pos_state` is its inverse,
recovered by searching), the pending `queue`, and `accepting_states`. -/
structure Dfa where
  states : List (List (Char × ℕ))
  statePos : List (Finset ℕ)
  queue : List ℕ
  accepting : Finset ℕ
  deriving DecidableEq

/-- Update the transition dict of state `sid`. -/
def setTrans (states : List (List (Char × ℕ))) (sid : ℕ) (sym : Char) (nid : ℕ) :
    List (List (Char × ℕ)) :=
  listModify states sid (tmapSet sym nid)

/-- Process one `(symbol, next_pos_set)` item of `symbol_pos_map`: reuse the
state with that position set if one exists, otherwise allocate a new state
(recording it as accepting when it contains an end-marker position) and enqueue
it; in both cases record the transition. -/
def processSymbol (ptbl : PTbl) (sid : ℕ) (st : Dfa) (pr : Char × Finset ℕ) : Dfa :=
  match st.statePos.findIdx? (fun x => x = pr.2) with
  | some nid => { st with states := setTrans st.states sid pr.1 nid }
  | none =>
    let nid := st.states.length
    { states := setTrans (st.states ++ [[]]) sid pr.1 nid
      statePos := st.statePos ++ [pr.2]
      queue := st.queue ++ [nid]
      accepting := if containsHash pr.2 ptbl then insert nid st.accepting else st.accepting }

/-- One iteration of the worklist loop: pop the queue's head, build its
`symbol_pos_map`, and process each item in insertion order. -/
def dfaStep (ptbl : PTbl) (ftbl : FTbl) (st : Dfa) : Dfa :=
  match st.queue with
  | [] => st
  | sid :: rest =>
    let ps := (st.statePos.get? sid).getD ∅
    (buildSymbolMap ps ptbl ftbl).foldl (processSymbol ptbl sid) { st with queue := rest }

/-- The fuelled worklist loop; the fuel chosen by `construct_dfa` dominates the
loop's iteration count, which is bounded by the number of distinct position
sets. -/
def dfaLoop (ptbl : PTbl) (ftbl : FTbl) : ℕ → Dfa → Dfa
  | 0, st => st
  | fuel + 1, st =>
    match st.queue with
    | [] => st
    | _ :: _ => dfaLoop ptbl ftbl fuel (dfaStep ptbl ftbl st)

/-- `construct_dfa`: start from state 0 with position set `firstpos(root)`,
mark it accepting when it contains an end-marker position, and run the worklist
loop. -/
def construct_dfa (root : ATree) (ftbl : FTbl) (ptbl : PTbl) : Dfa :=
  let startPos := afirst root
  dfaLoop ptbl ftbl (2 ^ ptbl.length)
    { states := [[]]
      statePos := [startPos]
      queue := [0]
      accepting := if containsHash startPos ptbl then {0} else ∅ }

/-- The full conversion pipeline of `generate_dfa`/`result`: reset the global
position state, parse, annotate, compute followpos, construct the DFA. -/
def pipeline (s : String) : Except ParseError Dfa :=
  match parse s with
  | .error e => .error e
  | .ok t =>
    let res := annotate t 1 []
    .ok (construct_dfa res.1 (compute_followpos res.1 []) res.2.2)

/-- The DFA of a convertible regex, with a dummy value on parse errors. -/
def runDfa (s : String) : Dfa :=
  match pipeline s with
  | .ok d => d
  | .error _ => { states := [], statePos := [], queue := [], accepting := ∅ }

/-- Nullability of a regex computed directly on the unannotated tree; for a
`plus` node the desugared `Concat(n, Star(n))` is nullable iff `n` is. -/
def nullableR : RegexNode → Bool
  | .symbol _ => false
  | .concat l r => nullableR l && nullableR r
  | .union l r => nullableR l || nullableR r
  | .star _ => true
  | .plus n => nullableR n

theorem anullable_annotate (e : RegexNode) :
    ∀ ctr tbl, anullable (annotate e ctr tbl).1 = nullableR e := by
  induction e with
  | symbol c => intro ctr tbl; simp [annotate, anullable, nullableR]
  | concat l r ihl ihr => intro ctr tbl; simp [annotate, anullable, nullableR, ihl, ihr]
  | union l r ihl ihr => intro ctr tbl; simp [annotate, anullable, nullableR, ihl, ihr]
  | star n ih => intro ctr tbl; simp [annotate, anullable, nullableR]
  | plus n ih => intro ctr tbl; simp [annotate, anullable, nullableR, ih]

/-- Language semantics of a regex tree; `plus n` denotes the same language as
`concat n (star n)`. -/
inductive Matches : RegexNode → List Char → Prop where
  | symbol (c : Char) : Matches (.symbol c) [c]
  | concat {l r : RegexNode} {u v : List Char} :
      Matches l u → Matches r v → Matches (.concat l r) (u ++ v)
  | unionL {l r : RegexNode} {u : List Char} : Matches l u → Matches (.union l r) u
  | unionR {l r : RegexNode} {v : List Char} : Matches r v → Matches (.union l r) v
  | starNil {n : RegexNode} : Matches (.star n) []
  | starCons {n : RegexNode} {u v : List Char} :
      Matches n u → Matches (.star n) v → Matches (.star n) (u ++ v)
  | plus {n : RegexNode} {u v : List Char} :
      Matches n u → Matches (.star n) v → Matches (.plus n) (u ++ v)

theorem matches_nil_of_nullable (e : RegexNode) (h : nullableR e = true) : Matches e [] := by
  induction e with
  | symbol c => simp [nullableR] at h
  | concat l r ihl ihr =>
    simp only [nullableR, Bool.and_eq_true] at h
    exact (List.nil_append []) ▸ Matches.concat (ihl h.1) (ihr h.2)
  | union l r ihl ihr =>
    simp only [nullableR, Bool.or_eq_true] at h
    rcases h with h | h
    · exact Matches.unionL (ihl h)
    · exact Matches.unionR (ihr h)
  | star n ih => exact Matches.starNil
  | plus n ih =>
    simp only [nullableR] at h
    exact (List.nil_append []) ▸ Matches.plus (ih h) Matches.starNil

theorem nullable_of_matches_nil {e : RegexNode} {w : List Char} (h : Matches e w)
    (hw : w = []) : nullableR e = true := by
  induction h with
  | symbol c => cases hw
  | concat hl hr ihl ihr =>
    rcases List.append_eq_nil.mp hw with ⟨hu, hv⟩
    simp [nullableR, ihl hu, ihr hv]
  | unionL hl ih => simp [nullableR, ih hw]
  | unionR hr ih => simp [nullableR, ih hw]
  | starNil => simp [nullableR]
  | starCons hn hs ihn ihs => simp [nullableR]
  | plus hn hs ihn ihs =>
    rcases List.append_eq_nil.mp hw with ⟨hu, _⟩
    simp [nullableR, ihn hu]

/-- The language of a regex contains the empty string iff the regex is
nullable. -/
theorem matches_nil_iff (e : RegexNode) : Matches e [] ↔ nullableR e = true :=
  ⟨fun h => nullable_of_matches_nil h rfl, matches_nil_of_nullable e⟩

theorem listModify_length {α : Type} (l : List α) (i : ℕ) (f : α → α) :
    (listModify l i f).length = l.length := by
  induction l generalizing i with
  | nil => rfl
  | cons x xs ih =>
    cases i with
    | zero => rfl
    | succ j => simp only [listModify, List.length_cons, ih]

/-- The set of assigned positions: the keys of the position table. -/
def keysOf (ptbl : PTbl) : Finset ℕ := (ptbl.map Prod.fst).toFinset

/-- Invariant maintained by the worklist loop of `construct_dfa`: the states
list and the state-to-position-set table have equal length, all discovered
position sets are distinct subsets of the assigned positions, and a state index
is accepting exactly when its position set contains an end-marker position. -/
structure LoopInv (ptbl : PTbl) (P : Finset ℕ) (st : Dfa) : Prop where
  lenEq : st.states.length = st.statePos.length
  nodup : st.statePos.Nodup
  sub : ∀ ps ∈ st.statePos, ps ⊆ P
  accLt : ∀ i ∈ st.accepting, i < st.statePos.length
  accIff : ∀ i ps, st.statePos.get? i = some ps →
    (i ∈ st.accepting ↔ containsHash ps ptbl = true)

theorem LoopInv.len_le {ptbl : PTbl} {P : Finset ℕ} {st : Dfa} (h : LoopInv ptbl P st) :
    st.statePos.length ≤ 2 ^ P.card := by
  calc st.statePos.length = st.statePos.toFinset.card :=
        (List.toFinset_card_of_nodup h.nodup).symm
    _ ≤ P.powerset.card := Finset.card_le_card fun x hx => by
        rw [Finset.mem_powerset]
        exact h.sub x (List.mem_toFinset.mp hx)
    _ = 2 ^ P.card := Finset.card_powerset P

/-- Termination measure of the worklist loop: pending queue entries plus the
remaining budget of undiscovered position sets. -/
def measureDfa (P : Finset ℕ) (st : Dfa) : ℕ :=
  st.queue.length + (2 ^ P.card - st.statePos.length)

theorem processSymbol_spec (ptbl : PTbl) (P : Finset ℕ) (sid : ℕ) (st : Dfa)
    (pr : Char × Finset ℕ) (hp : pr.2 ⊆ P) (h : LoopInv ptbl P st) :
    LoopInv ptbl P (processSymbol ptbl sid st pr) ∧
    measureDfa P (processSymbol ptbl sid st pr) = measureDfa P st ∧
    (∃ ext, (processSymbol ptbl sid st pr).statePos = st.statePos ++ ext) ∧
    (∃ qext, (processSymbol ptbl sid st pr).queue = st.queue ++ qext) := by
  unfold processSymbol
  cases hf : st.statePos.findIdx? (fun x => x = pr.2) with
  | some nid =>
    refine ⟨?_, rfl, ⟨[], by simp⟩, ⟨[], by simp⟩⟩
    exact
      { lenEq := by simp [setTrans, listModify_length, h.lenEq]
        nodup := h.nodup
        sub := h.sub
        accLt := h.accLt
        accIff := h.accIff }
  | none =>
    have hnew : pr.2 ∉ st.statePos := by
      intro hmem
      have := List.findIdx?_eq_none_iff.mp hf pr.2 hmem
      simp at this
    have hL : st.states.length = st.statePos.length := h.lenEq
    have hinv : LoopInv ptbl P
        { states := setTrans (st.states ++ [[]]) sid pr.1 st.states.length
          statePos := st.statePos ++ [pr.2]
          queue := st.queue ++ [st.states.length]
          accepting := if containsHash pr.2 ptbl then insert st.states.length st.accepting
            else st.accepting } := by
      refine
        { lenEq := by simp [setTrans, listModify_length, hL]
          nodup := ?_
          sub := ?_
          accLt := ?_
          accIff := ?_ }
      · rw [List.nodup_append]
        exact ⟨h.nodup, List.nodup_singleton _, by
          intro a ha hb
          simp only [List.mem_singleton] at hb
          exact hnew (hb ▸ ha)⟩
      · intro ps hps
        rcases List.mem_append.mp hps with hps | hps
        · exact h.sub ps hps
        · simp only [List.mem_singleton] at hps
          exact hps ▸ hp
      · intro i hi
        simp only [List.length_append, List.length_singleton]
        split at hi
        · rcases Finset.mem_insert.mp hi with hi | hi
          · omega
          · have := h.accLt i hi; omega
        · have := h.accLt i hi; omega
      · intro i ps hips
        have hips2 : (st.statePos ++ [pr.2]).get? i = some ps := hips
        rcases Nat.lt_trichotomy i st.statePos.length with hi | hi | hi
        · rw [List.get?_append hi] at hips2
          have base := h.accIff i ps hips2
          have hne : i ≠ st.states.length := by omega
          split
          · rw [Finset.mem_insert]
            constructor
            · intro hcase
              rcases hcase with hcase | hcase
              · exact absurd hcase hne
              · exact base.mp hcase
            · intro hcase; exact Or.inr (base.mpr hcase)
          · exact base
        · have hips' : ps = pr.2 := by
            rw [hi, List.get?_concat_length] at hips2
            exact (Option.some_inj.mp hips2).symm
          subst hips'
          have hnid : i = st.states.length := by omega
          subst hnid
          split
          · rename_i hch
            simp [Finset.mem_insert, hch]
          · rename_i hch
            constructor
            · intro hmem
              have := h.accLt _ hmem
              omega
            · intro hcase
              simp only [Bool.not_eq_true] at hch
              rw [hcase] at hch
              cases hch
        · exfalso
          have hlen : (st.statePos ++ [pr.2]).length ≤ i := by
            simp only [List.length_append, List.length_singleton]
            omega
          rw [← List.get?_eq_none] at hlen
          rw [hlen] at hips2
          cases hips2
    refine ⟨hinv, ?_, ⟨[pr.2], rfl⟩, ⟨[st.states.length], rfl⟩⟩
    have hle : st.statePos.length + 1 ≤ 2 ^ P.card := by
      have := hinv.len_le
      simpa using this
    unfold measureDfa
    simp only [List.length_append, List.length_singleton]
    omega

theorem foldl_processSymbol_spec (ptbl : PTbl) (P : Finset ℕ) (sid : ℕ) :
    ∀ (smap : SMap) (st : Dfa), (∀ pr ∈ smap, pr.2 ⊆ P) → LoopInv ptbl P st →
    LoopInv ptbl P (smap.foldl (processSymbol ptbl sid) st) ∧
    measureDfa P (smap.foldl (processSymbol ptbl sid) st) = measureDfa P st ∧
    (∃ ext, (smap.foldl (processSymbol ptbl sid) st).statePos = st.statePos ++ ext) := by
  intro smap
  induction smap with
  | nil => intro st hv h; exact ⟨h, rfl, ⟨[], by simp⟩⟩
  | cons pr rest ih =>
    intro st hv h
    obtain ⟨h1, m1, ⟨e1, hex1⟩, _⟩ :=
      processSymbol_spec ptbl P sid st pr (hv pr (List.mem_cons_self _ _)) h
    obtain ⟨h2, m2, ⟨e2, hex2⟩⟩ :=
      ih (processSymbol ptbl sid st pr) (fun x hx => hv x (List.mem_cons_of_mem _ hx)) h1
    rw [List.foldl_cons]
    exact ⟨h2, by rw [m2, m1], ⟨e1 ++ e2, by rw [hex2, hex1, List.append_assoc]⟩⟩

theorem smapAdd_values {P : Finset ℕ} {c : Char} {s : Finset ℕ} (hs : s ⊆ P) :
    ∀ {m : SMap}, (∀ pr ∈ m, pr.2 ⊆ P) → ∀ pr ∈ smapAdd c s m, pr.2 ⊆ P := by
  intro m
  induction m with
  | nil =>
    intro _ pr hpr
    simp only [smapAdd, List.mem_singleton] at hpr
    exact hpr ▸ hs
  | cons hd tl ih =>
    obtain ⟨d, u⟩ := hd
    intro hm pr hpr
    by_cases hdc : d = c
    · simp only [smapAdd, if_pos hdc, List.mem_cons] at hpr
      rcases hpr with hpr | hpr
      · subst hpr
        exact Finset.union_subset (hm (d, u) (List.mem_cons_self _ _)) hs
      · exact hm pr (List.mem_cons_of_mem _ hpr)
    · simp only [smapAdd, if_neg hdc, List.mem_cons] at hpr
      rcases hpr with hpr | hpr
      · exact hpr ▸ hm (d, u) (List.mem_cons_self _ _)
      · exact ih (fun x hx => hm x (List.mem_cons_of_mem _ hx)) pr hpr

theorem buildSymbolMap_values (ps : Finset ℕ) (ptbl : PTbl) (ftbl : FTbl) (P : Finset ℕ)
    (hf : ∀ p, ftblGet p ftbl ⊆ P) :
    ∀ pr ∈ buildSymbolMap ps ptbl ftbl, pr.2 ⊆ P := by
  have gen : ∀ (l : List ℕ) (m : SMap), (∀ pr ∈ m, pr.2 ⊆ P) →
      ∀ pr ∈ l.foldl
        (fun m p =>
          let sym := ptblGet p ptbl
          if sym = '#' then m else smapAdd sym (ftblGet p ftbl) m) m, pr.2 ⊆ P := by
    intro l
    induction l with
    | nil => intro m hm pr hpr; exact hm pr hpr
    | cons p rest ih =>
      intro m hm pr hpr
      rw [List.foldl_cons] at hpr
      refine ih _ ?_ pr hpr
      intro x hx
      by_cases hsym : ptblGet p ptbl = '#'
      · have hx' : x ∈ m := by simpa [hsym] using hx
        exact hm x hx'
      · have hx' : x ∈ smapAdd (ptblGet p ptbl) (ftblGet p ftbl) m := by
          simpa [hsym] using hx
        exact smapAdd_values (hf p) hm x hx'
  intro pr hpr
  exact gen (sortedElems ps) [] (by simp) pr hpr

theorem dfaStep_spec (ptbl : PTbl) (ftbl : FTbl) (P : Finset ℕ)
    (hf : ∀ p, ftblGet p ftbl ⊆ P) (st : Dfa) (h : LoopInv ptbl P st)
    (sid : ℕ) (rest : List ℕ) (hq : st.queue = sid :: rest) :
    LoopInv ptbl P (dfaStep ptbl ftbl st) ∧
    measureDfa P (dfaStep ptbl ftbl st) + 1 = measureDfa P st ∧
    (∃ ext, (dfaStep ptbl ftbl st).statePos = st.statePos ++ ext) := by
  have hstep : dfaStep ptbl ftbl st =
      (buildSymbolMap ((st.statePos.get? sid).getD ∅) ptbl ftbl).foldl
        (processSymbol ptbl sid) { st with queue := rest } := by
    unfold dfaStep
    rw [hq]
  have h' : LoopInv ptbl P { st with queue := rest } :=
    { lenEq := h.lenEq, nodup := h.nodup, sub := h.sub, accLt := h.accLt, accIff := h.accIff }
  obtain ⟨h2, m2, hex⟩ := foldl_processSymbol_spec ptbl P sid
    (buildSymbolMap ((st.statePos.get? sid).getD ∅) ptbl ftbl) { st with queue := rest }
    (buildSymbolMap_values _ ptbl ftbl P hf) h'
  rw [hstep]
  refine ⟨h2, ?_, hex⟩
  rw [m2]
  unfold measureDfa
  rw [hq]
  simp only [List.length_cons]
  omega

theorem dfaLoop_spec (ptbl : PTbl) (ftbl : FTbl) (P : Finset ℕ)
    (hf : ∀ p, ftblGet p ftbl ⊆ P) :
    ∀ (fuel : ℕ) (st : Dfa), LoopInv ptbl P st → measureDfa P st ≤ fuel →
    (dfaLoop ptbl ftbl fuel st).queue = [] ∧
    LoopInv ptbl P (dfaLoop ptbl ftbl fuel st) ∧
    (∃ ext, (dfaLoop ptbl ftbl fuel st).statePos = st.statePos ++ ext) := by
  intro fuel
  induction fuel with
  | zero =>
    intro st h hm
    have hq : st.queue = [] := by
      have : st.queue.length = 0 := by unfold measureDfa at hm; omega
      exact List.length_eq_zero.mp this
    exact ⟨hq, h, ⟨[], by simp [dfaLoop]⟩⟩
  | succ fuel ih =>
    intro st h hm
    cases hq : st.queue with
    | nil =>
      have : dfaLoop ptbl ftbl (fuel + 1) st = st := by
        unfold dfaLoop
        rw [hq]
      rw [this]
      exact ⟨hq, h, ⟨[], by simp⟩⟩
    | cons sid rest =>
      obtain ⟨h2, m2, ⟨e2, hex2⟩⟩ := dfaStep_spec ptbl ftbl P hf st h sid rest hq
      have hm2 : measureDfa P (dfaStep ptbl ftbl st) ≤ fuel := by omega
      obtain ⟨hq3, h3, ⟨e3, hex3⟩⟩ := ih (dfaStep ptbl ftbl st) h2 hm2
      have hred : dfaLoop ptbl ftbl (fuel + 1) st = dfaLoop ptbl ftbl fuel (dfaStep ptbl ftbl st) := by
        have hmatch : dfaLoop ptbl ftbl (fuel + 1) st =
            match st.queue with
            | [] => st
            | _ :: _ => dfaLoop ptbl ftbl fuel (dfaStep ptbl ftbl st) := rfl
        rw [hmatch, hq]
      rw [hred]
      exact ⟨hq3, h3, ⟨e2 ++ e3, by rw [hex3, hex2, List.append_assoc]⟩⟩

theorem construct_dfa_spec (root : ATree) (ftbl : FTbl) (ptbl : PTbl)
    (hstart : afirst root ⊆ keysOf ptbl) (hf : ∀ p, ftblGet p ftbl ⊆ keysOf ptbl) :
    (construct_dfa root ftbl ptbl).queue = [] ∧
    LoopInv ptbl (keysOf ptbl) (construct_dfa root ftbl ptbl) ∧
    (construct_dfa root ftbl ptbl).statePos.get? 0 = some (afirst root) := by
  set st0 : Dfa :=
    { states := [[]]
      statePos := [afirst root]
      queue := [0]
      accepting := if containsHash (afirst root) ptbl then {0} else ∅ } with hst0
  have hinv0 : LoopInv ptbl (keysOf ptbl) st0 := by
    refine
      { lenEq := rfl
        nodup := List.nodup_singleton _
        sub := ?_
        accLt := ?_
        accIff := ?_ }
    · intro ps hps
      simp only [hst0, List.mem_singleton] at hps
      exact hps ▸ hstart
    · intro i hi
      simp only [hst0] at hi ⊢
      split at hi
      · simp only [Finset.mem_singleton] at hi
        simp [hi]
      · cases hi
    · intro i ps hips
      simp only [hst0] at hips ⊢
      cases i with
      | zero =>
        simp only [List.get?] at hips
        cases hips
        split
        · rename_i hch
          simp [hch]
        · rename_i hch
          simp only [Bool.not_eq_true] at hch
          simp [hch]
      | succ j =>
        simp only [List.get?] at hips
        cases hips
  have hcard : (keysOf ptbl).card ≤ ptbl.length := by
    calc (keysOf ptbl).card ≤ (ptbl.map Prod.fst).length := List.toFinset_card_le _
      _ = ptbl.length := List.length_map _ _
  have hone : 1 ≤ 2 ^ (keysOf ptbl).card := Nat.one_le_two_pow
  have hpow : 2 ^ (keysOf ptbl).card ≤ 2 ^ ptbl.length :=
    Nat.pow_le_pow_right (by omega) hcard
  have hm : measureDfa (keysOf ptbl) st0 ≤ 2 ^ ptbl.length := by
    unfold measureDfa
    simp only [hst0, List.length_singleton]
    omega
  have hcd : construct_dfa root ftbl ptbl = dfaLoop ptbl ftbl (2 ^ ptbl.length) st0 := rfl
  obtain ⟨hq, hinv, ⟨ext, hex⟩⟩ :=
    dfaLoop_spec ptbl ftbl (keysOf ptbl) hf (2 ^ ptbl.length) st0 hinv0 hm
  refine ⟨by rw [hcd]; exact hq, by rw [hcd]; exact hinv, ?_⟩
  rw [hcd, hex]
  simp only [hst0]
  rw [List.get?_append (by simp)]
  rfl

theorem mem_keys_of_lookup {β : Type} {p : ℕ} {l : List (ℕ × β)} {v : β}
    (h : List.lookup p l = some v) : p ∈ l.map Prod.fst := by
  by_contra hn
  rw [lookup_eq_none_of_notMem hn] at h
  cases h

theorem leafPosF_subset_keys (e : RegexNode) (ctr : ℕ) (tbl : PTbl) :
    leafPosF (annotate e ctr tbl).1 ⊆ keysOf (annotate e ctr tbl).2.2 := by
  intro p hp
  rw [leafPosF, List.mem_toFinset, List.mem_map] at hp
  obtain ⟨pr, hpr, hpp⟩ := hp
  have hlk := leafEntries_lookup e ctr tbl pr hpr
  rw [keysOf, List.mem_toFinset]
  exact hpp ▸ mem_keys_of_lookup hlk

theorem ftblGet_nil (q : ℕ) : ftblGet q ([] : FTbl) = ∅ := rfl

theorem followpos_values_nil (a : ATree) (q : ℕ) :
    ftblGet q (compute_followpos a []) ⊆ leafPosF a := by
  have h := followpos_values a [] q
  simpa [ftblGet_nil] using h

theorem containsHash_iff (S : Finset ℕ) (ptbl : PTbl) :
    containsHash S ptbl = true ↔ ∃ p ∈ S, ptblGet p ptbl = '#' := by
  unfold containsHash
  rw [List.any_eq_true]
  constructor
  · rintro ⟨p, hp, hbeq⟩
    exact ⟨p, (mem_sortedElems _ _).mp hp, beq_iff_eq.mp hbeq⟩
  · rintro ⟨p, hp, heq⟩
    exact ⟨p, (mem_sortedElems _ _).mpr hp, beq_iff_eq.mpr heq⟩

theorem pipeline_ok (s : String) (t : RegexNode) (h : parse s = .ok t) :
    pipeline s = .ok (construct_dfa (annotate t 1 []).1
      (compute_followpos (annotate t 1 []).1 []) (annotate t 1 []).2.2) := by
  unfold pipeline
  rw [h]

theorem pipeline_spec (s : String) (t : RegexNode) (h : parse s = .ok t) (d : Dfa)
    (hd : pipeline s = .ok d) :
    d = construct_dfa (annotate t 1 []).1 (compute_followpos (annotate t 1 []).1 [])
      (annotate t 1 []).2.2 ∧
    d.queue = [] ∧
    LoopInv (annotate t 1 []).2.2 (keysOf (annotate t 1 []).2.2) d ∧
    d.statePos.get? 0 = some (afirst (annotate t 1 []).1) := by
  have heq := pipeline_ok s t h
  rw [heq] at hd
  injection hd with hd
  have hstart : afirst (annotate t 1 []).1 ⊆ keysOf (annotate t 1 []).2.2 :=
    (afirst_subset _).trans (leafPosF_subset_keys t 1 [])
  have hf : ∀ p, ftblGet p (compute_followpos (annotate t 1 []).1 []) ⊆
      keysOf (annotate t 1 []).2.2 :=
    fun p => (followpos_values_nil _ p).trans (leafPosF_subset_keys t 1 [])
  obtain ⟨hq, hinv, hget⟩ := construct_dfa_spec _ _ _ hstart hf
  exact ⟨hd.symm, hd ▸ hq, hd ▸ hinv, hd ▸ hget⟩

theorem ptbl_length_eq_leafCount (t : RegexNode) :
    ((annotate t 1 []).2.2).length = leafCount t := by
  have hk := annotate_keys t 1 []
  have : (((annotate t 1 []).2.2).map Prod.fst).length =
      ((List.range' 1 (leafCount t)).reverse ++ ([] : PTbl).map Prod.fst).length := by
    rw [hk]
  simpa using this

theorem leafPosF_range (e : RegexNode) (ctr : ℕ) (tbl : PTbl) :
    ∀ p ∈ leafPosF (annotate e ctr tbl).1, ctr ≤ p ∧ p < ctr + leafCount e := by
  intro p hp
  rw [leafPosF, List.mem_toFinset, List.mem_map] at hp
  obtain ⟨pr, hpr, hppr⟩ := hp
  exact hppr ▸ leafEntries_range e ctr tbl pr hpr

/-- The parse tree of the regex string used by several witnesses. -/
def treeA : RegexNode := .concat (.symbol 'a') (.symbol '#')

/-- C1 (counterexample): parsing the input string `((` does not fail with the
`MismatchedParentheses` error, contradicting the claim. -/
theorem C1_counterexample : ¬ (parse "((" = .error .mismatchedParentheses) := by decide

/-- C1 (amended): parsing the input string `((` fails with
`UnexpectedCharacter(None)`: the inner `base` call reaches end of input where a
base was required, before any closing-parenthesis check happens. -/
theorem C1_amended : parse "((" = .error (.unexpectedCharacter none) := by decide

/-- C2: after annotation of any successfully parsed regex, the final counter is
`n + 1` for `n` the leaf-visit count including the end marker, the position
table's keys are exactly `1..n` in assignment order (hence unique and dense,
with no id assigned twice), and every leaf of the annotated tree holds an id in
`1..n`. -/
theorem C2_positions_dense (s : String) (t : RegexNode) (h : parse s = .ok t) :
    (annotate t 1 []).2.1 = leafCount t + 1 ∧
    ((annotate t 1 []).2.2).map Prod.fst = (List.range' 1 (leafCount t)).reverse ∧
    (((annotate t 1 []).2.2).map Prod.fst).Nodup ∧
    ∀ pr ∈ leafEntries (annotate t 1 []).1, pr.1 ∈ Finset.Icc 1 (leafCount t) := by
  refine ⟨?_, ?_, ?_, ?_⟩
  · rw [annotate_counter]; omega
  · have hk := annotate_keys t 1 []
    simpa using hk
  · have hk := annotate_keys t 1 []
    rw [hk]
    simp only [List.map_nil, List.append_nil]
    rw [List.nodup_reverse]
    exact List.nodup_range' 1 (leafCount t)
  · intro pr hpr
    have hr := leafEntries_range t 1 [] pr hpr
    rw [Finset.mem_Icc]
    omega

theorem C2_witness :
    (annotate treeA 1 []).2.1 = leafCount treeA + 1 ∧
    ((annotate treeA 1 []).2.2).map Prod.fst = (List.range' 1 (leafCount treeA)).reverse :=
  ⟨(C2_positions_dense "a" treeA (by decide)).1,
   (C2_positions_dense "a" treeA (by decide)).2.1⟩

/-- C3 (counterexample): for the regex `#` the conversion succeeds, state 0 is
accepting, yet the language of the regex `#` does not contain the empty string;
so state 0 being accepting is not equivalent to the language matching the empty
string. -/
theorem C3_counterexample :
    parse "#" = .ok (.concat (.symbol '#') (.symbol '#')) ∧
    pipeline "#" = .ok (runDfa "#") ∧
    0 ∈ (runDfa "#").accepting ∧ ¬ Matches (.symbol '#') [] := by
  refine ⟨by decide, by decide, by decide, ?_⟩
  intro hm
  cases hm

/-- C3 (amended): for every successfully converted regex, state 0's position
set equals `firstpos` of the annotated root; and when the regex expression does
not contain the literal `#`, state 0 is accepting iff the language of the
expression contains the empty string. -/
theorem C3_start_state (s : String) (e t : RegexNode) (h : parse s = .ok t)
    (hsh : t = .concat e (.symbol '#')) (d : Dfa) (hd : pipeline s = .ok d) :
    d.statePos.get? 0 = some (afirst (annotate t 1 []).1) ∧
    ('#' ∉ symOf e → (0 ∈ d.accepting ↔ Matches e [])) := by
  obtain ⟨hdef, hq, hinv, hget⟩ := pipeline_spec s t h d hd
  refine ⟨hget, ?_⟩
  intro hnh
  rw [hinv.accIff 0 _ hget, matches_nil_iff, containsHash_iff]
  subst hsh
  have hroot1 : (annotate (RegexNode.concat e (.symbol '#')) 1 []).1 =
      .aconcat (annotate e 1 []).1 (.asymbol '#' (annotate e 1 []).2.1) := by
    simp [annotate]
  have hroot2 : (annotate (RegexNode.concat e (.symbol '#')) 1 []).2.2 =
      ((annotate e 1 []).2.1, '#') :: (annotate e 1 []).2.2 := by
    simp [annotate]
  rw [hroot1, hroot2]
  have hc1 : (annotate e 1 []).2.1 = 1 + leafCount e := annotate_counter e 1 []
  have hlow : ∀ p ∈ leafPosF (annotate e 1 []).1,
      ptblGet p (((annotate e 1 []).2.1, '#') :: (annotate e 1 []).2.2) ≠ '#' := by
    intro p hp
    rw [leafPosF, List.mem_toFinset, List.mem_map] at hp
    obtain ⟨pr, hpr, hppr⟩ := hp
    subst hppr
    have hrange := leafEntries_range e 1 [] pr hpr
    have hlk := leafEntries_lookup e 1 [] pr hpr
    have hsym := leafEntries_sym e 1 [] pr hpr
    have hne : pr.2 ≠ '#' := fun hcontr => hnh (hcontr ▸ hsym)
    have hgv : ptblGet pr.1 (((annotate e 1 []).2.1, '#') :: (annotate e 1 []).2.2) = pr.2 := by
      unfold ptblGet
      rw [List.lookup_cons]
      have hbeq : (pr.1 == (annotate e 1 []).2.1) = false := by
        refine beq_eq_false_iff_ne.mpr ?_
        omega
      rw [hbeq]
      show (List.lookup pr.1 (annotate e 1 []).2.2).getD ' ' = pr.2
      rw [hlk]
      rfl
    rw [hgv]
    exact hne
  have hend : ptblGet (annotate e 1 []).2.1
      (((annotate e 1 []).2.1, '#') :: (annotate e 1 []).2.2) = '#' := by
    unfold ptblGet
    rw [List.lookup_cons]
    simp
  have hfr : afirst (ATree.aconcat (annotate e 1 []).1 (.asymbol '#' (annotate e 1 []).2.1)) =
      if anullable (annotate e 1 []).1 then
        afirst (annotate e 1 []).1 ∪ {(annotate e 1 []).2.1}
      else afirst (annotate e 1 []).1 := by
    simp [afirst]
  have hnull : anullable (annotate e 1 []).1 = nullableR e := anullable_annotate e 1 []
  rw [hfr]
  cases hnl : nullableR e with
  | true =>
    rw [if_pos (by rw [hnull]; exact hnl)]
    constructor
    · intro _; rfl
    · intro _
      exact ⟨(annotate e 1 []).2.1,
        Finset.mem_union_right _ (Finset.mem_singleton_self _), hend⟩
  | false =>
    rw [if_neg (by rw [hnull, hnl]; exact Bool.false_ne_true)]
    constructor
    · rintro ⟨p, hp, hph⟩
      exact absurd hph (hlow p (afirst_subset _ hp))
    · intro hcontr
      exact absurd hcontr (Bool.false_ne_true)

theorem C3_witness :
    (runDfa "a").statePos.get? 0 = some (afirst (annotate treeA 1 []).1) ∧
    (0 ∈ (runDfa "a").accepting ↔ Matches (RegexNode.symbol 'a') []) :=
  have h := C3_start_state "a" (.symbol 'a') treeA (by decide) rfl (runDfa "a") (by decide)
  ⟨h.1, h.2 (by decide)⟩

/-- C4: converting the regex `(a|b)*abb` produces exactly 4 states, state 0 is
not accepting, and exactly one state is accepting. -/
theorem C4_textbook_dfa :
    pipeline "(a|b)*abb" = .ok (runDfa "(a|b)*abb") ∧
    (runDfa "(a|b)*abb").states.length = 4 ∧
    0 ∉ (runDfa "(a|b)*abb").accepting ∧
    (runDfa "(a|b)*abb").accepting.card = 1 := by
  exact ⟨by decide, by decide, by decide, by decide⟩

/-- C5: for every successfully converted regex, the worklist loop terminates
with an empty queue, the discovered position sets are pairwise distinct (each
distinct position set is enqueued at most once), and the number of states is at
most `2 ^ n` for `n` the leaf count including the end marker. -/
theorem C5_worklist_terminates (s : String) (t : RegexNode) (h : parse s = .ok t)
    (d : Dfa) (hd : pipeline s = .ok d) :
    d.queue = [] ∧ d.statePos.Nodup ∧ d.states.length ≤ 2 ^ leafCount t := by
  obtain ⟨hdef, hq, hinv, hget⟩ := pipeline_spec s t h d hd
  refine ⟨hq, hinv.nodup, ?_⟩
  have h2 := hinv.len_le
  have h3 : (keysOf (annotate t 1 []).2.2).card ≤ ((annotate t 1 []).2.2).length := by
    calc (keysOf (annotate t 1 []).2.2).card
        ≤ (((annotate t 1 []).2.2).map Prod.fst).length := List.toFinset_card_le _
      _ = ((annotate t 1 []).2.2).length := List.length_map _ _
  have h4 := ptbl_length_eq_leafCount t
  calc d.states.length = d.statePos.length := hinv.lenEq
    _ ≤ 2 ^ (keysOf (annotate t 1 []).2.2).card := h2
    _ ≤ 2 ^ leafCount t := Nat.pow_le_pow_right (by omega) (by omega)

theorem C5_witness :
    (runDfa "a").queue = [] ∧ (runDfa "a").statePos.Nodup ∧
    (runDfa "a").states.length ≤ 2 ^ leafCount treeA :=
  C5_worklist_terminates "a" treeA (by decide) (runDfa "a") (by decide)

/-- C6: converting the regex `a*` yields an automaton whose state 0 is
accepting and whose state 0 has a transition on `a` back to state 0 itself. -/
theorem C6_astar_selfloop :
    pipeline "a*" = .ok (runDfa "a*") ∧
    0 ∈ (runDfa "a*").accepting ∧
    (runDfa "a*").states.get? 0 = some [('a', 0)] := by
  exact ⟨by decide, by decide, by decide⟩

/-- C7: for every successfully parsed regex, the position of the synthetic end
marker (which is `leafCount t`, the last position assigned) never appears as a
key of the followpos table. -/
theorem C7_endmarker_not_key (s : String) (t : RegexNode) (h : parse s = .ok t) :
    leafCount t ∉ (compute_followpos (annotate t 1 []).1 []).map Prod.fst := by
  obtain ⟨e, rfl⟩ := parse_shape s t h
  intro hmem
  have hroot : (annotate (RegexNode.concat e (.symbol '#')) 1 []).1 =
      .aconcat (annotate e 1 []).1 (.asymbol '#' (annotate e 1 []).2.1) := by
    simp [annotate]
  rw [hroot] at hmem
  rcases followpos_keys _ [] _ hmem with h' | h'
  · simp at h'
  · rw [Kset] at h'
    rw [show Kset (ATree.asymbol '#' (annotate e 1 []).2.1) = ∅ from rfl,
      Finset.union_empty] at h'
    have hin : leafCount (RegexNode.concat e (.symbol '#')) ∈
        leafPosF (annotate e 1 []).1 := by
      rcases Finset.mem_union.mp h' with h2 | h2
      · exact alast_subset _ h2
      · exact Kset_subset _ h2
    have hrange := leafPosF_range e 1 [] _ hin
    simp only [leafCount] at hrange
    omega

theorem C7_witness :
    leafCount treeA ∉ (compute_followpos (annotate treeA 1 []).1 []).map Prod.fst :=
  C7_endmarker_not_key "a" treeA (by decide)

/-- C8: the conversion pipeline is deterministic: two independent runs on the
same regex string produce automatons with the same state count, the same
accepting set, and the same transition structure. -/
theorem C8_deterministic (s : String) (d₁ d₂ : Dfa)
    (h₁ : pipeline s = .ok d₁) (h₂ : pipeline s = .ok d₂) :
    d₁.states.length = d₂.states.length ∧ d₁.accepting = d₂.accepting ∧
      d₁.states = d₂.states := by
  rw [h₁] at h₂
  injection h₂ with h₂
  subst h₂
  exact ⟨rfl, rfl, rfl⟩

theorem C8_witness :
    (runDfa "a").states.length = (runDfa "a").states.length ∧
    (runDfa "a").accepting = (runDfa "a").accepting ∧
    (runDfa "a").states = (runDfa "a").states :=
  C8_deterministic "a" (runDfa "a") (runDfa "a") (by decide) (by decide)

/-- C9: the parser does not require the whole input to be consumed: on the
input `a)b` it succeeds, returning the tree of the prefix `a` and silently
discarding the unmatched `)` and everything after it. -/
theorem C9_trailing_ignored :
    parse "a)b" = .ok (.concat (.symbol 'a') (.symbol '#')) ∧ parse "a)b" = parse "a" :=
  ⟨by decide, by decide⟩

/-- C10: in any constructed DFA a state is accepting exactly when its position
set contains a position whose table symbol is `#` (acceptance is decided by
symbol character, not by the unique end-marker position); consequently, for the
input regex `#` the conversion yields a single state 0 that is accepting and,
since `#` positions contribute no outgoing transitions, has an empty transition
map. -/
theorem C10_accepting_by_symbol (root : ATree) (ftbl : FTbl) (ptbl : PTbl)
    (hstart : afirst root ⊆ keysOf ptbl) (hf : ∀ p, ftblGet p ftbl ⊆ keysOf ptbl)
    (i : ℕ) (ps : Finset ℕ)
    (hi : (construct_dfa root ftbl ptbl).statePos.get? i = some ps) :
    (i ∈ (construct_dfa root ftbl ptbl).accepting ↔ ∃ p ∈ ps, ptblGet p ptbl = '#') ∧
    (runDfa "#").states = [[]] ∧ (runDfa "#").accepting = {0} := by
  obtain ⟨hq, hinv, hget⟩ := construct_dfa_spec root ftbl ptbl hstart hf
  exact ⟨by rw [hinv.accIff i ps hi, containsHash_iff], by decide, by decide⟩

theorem C10_witness :
    (0 ∈ (construct_dfa (annotate treeA 1 []).1
        (compute_followpos (annotate treeA 1 []).1 []) (annotate treeA 1 []).2.2).accepting ↔
      ∃ p ∈ ({1} : Finset ℕ), ptblGet p (annotate treeA 1 []).2.2 = '#') ∧
    (runDfa "#").states = [[]] ∧ (runDfa "#").accepting = {0} :=
  C10_accepting_by_symbol (annotate treeA 1 []).1
    (compute_followpos (annotate treeA 1 []).1 []) (annotate treeA 1 []).2.2
    (by decide)
    (fun p => (followpos_values_nil _ p).trans (leafPosF_subset_keys treeA 1 []))
    0 {1} (by decide)
